import Mathlib

/-!
Verification of the parallel chunked-codec coordinator of p_laszip
(src/src/laszip.cpp, the MPI section of main, lines 800-1011).

The driver logic is embedded shallowly: the point-range partitioner, the
per-peer write offsets, the chunk-table assembly on the last rank, the
per-pass point-write loop, and the per-rank sequence of file and MPI
operations are all translated into executable Lean definitions.  Machine
integers (I64, U32) hold small nonnegative counts and stream positions in
this code, so they are modelled as Nat.  The arithmetic encoder and the
LASzip reader/writer are library collaborators whose sources are not part
of the driver; where a property depends on them they are modelled from the
specification as abstract deterministic functions (marked in doc comments).
-/

namespace PLaszip

/-! ## Partitioner (laszip.cpp lines 813-858)

LAS to LAZ: `chunks = npoints / chunk_size`, `left_over_points = npoints %
chunk_size`, `process_chunks = chunks / process_count`, `left_over_chunks =
chunks % process_count`; the assignment loop gives each rank
`process_chunks` chunks and one extra while `left_over_chunks` remains
nonzero, decrementing it each time. -/

/-- The chunk-assignment loop of laszip.cpp lines 823-831: rank by rank,
each rank gets `process_chunks` chunks plus one extra while the
`left_over_chunks` counter is still nonzero.  (Nat subtraction agrees with
the source because the counter is only decremented when nonzero.) -/
def dealChunks : Nat → Nat → Nat → List Nat
  | 0, _, _ => []
  | n + 1, process_chunks, left_over_chunks =>
      (if 0 < left_over_chunks then process_chunks + 1 else process_chunks) ::
        dealChunks n process_chunks (left_over_chunks - 1)

/-- `all_process_chunks` array of laszip.cpp line 822-831 for the LAS→LAZ
direction: distribute `npoints / chunk_size` whole chunks over
`process_count` ranks. -/
def all_process_chunks (npoints chunk_size process_count : Nat) : List Nat :=
  dealChunks process_count (npoints / chunk_size / process_count)
    (npoints / chunk_size % process_count)

/-- The cumulative-start loop of laszip.cpp lines 832-838:
`all_point_start[i] = cur; cur += all_process_chunks[i] * chunk_size`. -/
def all_point_start_aux (chunk_size cur : Nat) : List Nat → List Nat
  | [] => []
  | c :: rest => cur :: all_point_start_aux chunk_size (cur + c * chunk_size) rest

/-- `all_point_start` array of laszip.cpp lines 832-838. -/
def all_point_start (npoints chunk_size process_count : Nat) : List Nat :=
  all_point_start_aux chunk_size 0 (all_process_chunks npoints chunk_size process_count)

/-- `point_start` for a rank (laszip.cpp line 841). -/
def point_start (npoints chunk_size process_count rank : Nat) : Nat :=
  (all_point_start npoints chunk_size process_count).getD rank 0

/-- `process_points = all_process_chunks[rank] * chunk_size`
(laszip.cpp line 840). -/
def process_points (npoints chunk_size process_count rank : Nat) : Nat :=
  (all_process_chunks npoints chunk_size process_count).getD rank 0 * chunk_size

/-- `point_end` for a rank (laszip.cpp lines 842-846): `point_start +
process_points`, and the last rank additionally absorbs the
`left_over_points = npoints % chunk_size` trailing points. -/
def point_end (npoints chunk_size process_count rank : Nat) : Nat :=
  point_start npoints chunk_size process_count rank +
    process_points npoints chunk_size process_count rank +
    (if rank = process_count - 1 then npoints % chunk_size else 0)

/-! ### Basic facts about the chunk-assignment loop -/

theorem dealChunks_length (n process_chunks left_over : Nat) :
    (dealChunks n process_chunks left_over).length = n := by
  induction n generalizing left_over with
  | zero => rfl
  | succ n ih => simp [dealChunks, ih]

theorem dealChunks_getD (n process_chunks left_over r : Nat) (hr : r < n) :
    (dealChunks n process_chunks left_over).getD r 0 =
      if r < left_over then process_chunks + 1 else process_chunks := by
  induction n generalizing left_over r with
  | zero => omega
  | succ n ih =>
    cases r with
    | zero =>
      simp only [dealChunks, List.getD_cons_zero]
    | succ r =>
      have hr' : r < n := by omega
      simp only [dealChunks, List.getD_cons_succ, ih _ _ hr']
      by_cases h : r + 1 < left_over
      · rw [if_pos (show r < left_over - 1 by omega), if_pos h]
      · rw [if_neg (show ¬ r < left_over - 1 by omega), if_neg h]

theorem dealChunks_sum (n process_chunks left_over : Nat) (h : left_over ≤ n) :
    (dealChunks n process_chunks left_over).sum = n * process_chunks + left_over := by
  induction n generalizing left_over with
  | zero => simp [dealChunks]; omega
  | succ n ih =>
    by_cases h0 : 0 < left_over
    · have := ih (left_over - 1) (by omega)
      simp only [dealChunks, if_pos h0, List.sum_cons, this]
      ring_nf
      omega
    · have := ih (left_over - 1) (by omega)
      simp only [dealChunks, if_neg h0, List.sum_cons, this]
      ring_nf
      omega

theorem all_process_chunks_length (npoints chunk_size process_count : Nat) :
    (all_process_chunks npoints chunk_size process_count).length = process_count := by
  simp [all_process_chunks, dealChunks_length]

theorem all_process_chunks_sum (npoints chunk_size process_count : Nat)
    (hP : 0 < process_count) :
    (all_process_chunks npoints chunk_size process_count).sum =
      npoints / chunk_size := by
  have hmod : npoints / chunk_size % process_count < process_count :=
    Nat.mod_lt _ hP
  rw [all_process_chunks, dealChunks_sum _ _ _ (Nat.le_of_lt hmod)]
  exact Nat.div_add_mod _ _

/-- The LAZ→LAS split of laszip.cpp lines 850-858: `process_points =
npoints / process_count`, `point_start = rank * process_points`. -/
def laz_point_start (npoints process_count rank : Nat) : Nat :=
  rank * (npoints / process_count)

/-- `point_end` for LAZ→LAS (laszip.cpp lines 855-856): `point_start +
process_points`, the last rank absorbing `npoints % process_count`. -/
def laz_point_end (npoints process_count rank : Nat) : Nat :=
  laz_point_start npoints process_count rank + npoints / process_count +
    (if rank = process_count - 1 then npoints % process_count else 0)

/-! ### Arithmetic helper lemmas -/

theorem take_succ_sum (l : List Nat) (r : Nat) :
    (l.take (r + 1)).sum = (l.take r).sum + l.getD r 0 := by
  induction l generalizing r with
  | nil => simp
  | cons x xs ih =>
    cases r with
    | zero => simp
    | succ r => simp [List.take_succ_cons, ih, Nat.add_assoc]

theorem sum_take_mono (l : List Nat) {r s : Nat} (h : r ≤ s) :
    (l.take r).sum ≤ (l.take s).sum := by
  induction s, h using Nat.le_induction with
  | base => exact Nat.le_refl _
  | succ s hs ih =>
    calc (l.take r).sum ≤ (l.take s).sum := ih
    _ ≤ (l.take (s + 1)).sum := by rw [take_succ_sum]; omega

/-- Ceiling division: when the remainder is nonzero,
`⌈K/P⌉ = (K + P - 1) / P = K / P + 1`. -/
theorem ceil_div_of_mod_pos (K P : Nat) (hP : 0 < P) (h : 0 < K % P) :
    (K + P - 1) / P = K / P + 1 := by
  have hq := Nat.div_add_mod K P
  have hsP : K % P < P := Nat.mod_lt _ hP
  calc (K + P - 1) / P
      = (P * (K / P) + K % P + P - 1) / P := by rw [hq]
    _ = (P * (K / P) + (K % P + P - 1)) / P := by
        rw [Nat.add_assoc, Nat.add_sub_assoc (by omega)]
    _ = (K % P + P - 1 + P * (K / P)) / P := by rw [Nat.add_comm]
    _ = (K % P + P - 1) / P + K / P := Nat.add_mul_div_left _ _ hP
    _ = (K % P - 1 + P) / P + K / P := by rw [Nat.sub_add_comm (by omega)]
    _ = (K % P - 1) / P + 1 + K / P := by rw [Nat.add_div_right _ hP]
    _ = K / P + 1 := by rw [Nat.div_eq_of_lt (by omega)]; omega

theorem all_point_start_aux_getD (chunk_size : Nat) (l : List Nat) :
    ∀ (cur r : Nat), r < l.length →
      (all_point_start_aux chunk_size cur l).getD r 0 =
        cur + (l.take r).sum * chunk_size := by
  induction l with
  | nil => intro cur r hr; simp at hr
  | cons c rest ih =>
    intro cur r hr
    cases r with
    | zero => simp [all_point_start_aux]
    | succ r =>
      have hr' : r < rest.length := by simpa using hr
      simp only [all_point_start_aux, List.getD_cons_succ, ih _ r hr',
        List.take_succ_cons, List.sum_cons, Nat.add_mul]
      omega

/-- `point_start` is the cumulative sum of the preceding ranks' chunk
counts times the chunk size. -/
theorem point_start_eq (npoints chunk_size process_count r : Nat)
    (hr : r < process_count) :
    point_start npoints chunk_size process_count r =
      ((all_process_chunks npoints chunk_size process_count).take r).sum * chunk_size := by
  have hlen : r < (all_process_chunks npoints chunk_size process_count).length := by
    rw [all_process_chunks_length]; exact hr
  rw [point_start, all_point_start, all_point_start_aux_getD _ _ 0 r hlen,
    Nat.zero_add]

theorem point_start_succ (npoints chunk_size process_count r : Nat)
    (hr : r + 1 < process_count) :
    point_start npoints chunk_size process_count (r + 1) =
      point_start npoints chunk_size process_count r +
        (all_process_chunks npoints chunk_size process_count).getD r 0 * chunk_size := by
  rw [point_start_eq _ _ _ _ hr, point_start_eq _ _ _ _ (by omega),
    take_succ_sum, Nat.add_mul]

theorem point_end_eq_next (npoints chunk_size process_count r : Nat)
    (hr : r + 1 < process_count) :
    point_end npoints chunk_size process_count r =
      point_start npoints chunk_size process_count (r + 1) := by
  rw [point_start_succ _ _ _ _ hr, point_end, process_points,
    if_neg (by omega : ¬ r = process_count - 1), Nat.add_zero]

/-- C1: for the LAS→LAZ direction the partitioner deals one extra chunk to
the lowest ranks: the first `K mod P` ranks get `⌈K/P⌉ = (K+P-1)/P`
chunks, the rest get `⌊K/P⌋`; `point_start` is the cumulative sum of the
preceding ranks' chunk counts times the chunk size; `point_end` adds this
rank's chunks times the chunk size, and the last rank additionally absorbs
the `N mod C` trailing points. -/
theorem c1_las_to_laz_partition (N C P r : Nat) (hP : 0 < P) (hr : r < P) :
    (r < N / C % P →
      (all_process_chunks N C P).getD r 0 = (N / C + P - 1) / P) ∧
    (N / C % P ≤ r →
      (all_process_chunks N C P).getD r 0 = N / C / P) ∧
    point_start N C P r = ((all_process_chunks N C P).take r).sum * C ∧
    (r ≠ P - 1 →
      point_end N C P r =
        point_start N C P r + (all_process_chunks N C P).getD r 0 * C) ∧
    point_end N C P (P - 1) =
      point_start N C P (P - 1) +
        (all_process_chunks N C P).getD (P - 1) 0 * C + N % C := by
  refine ⟨?_, ?_, point_start_eq N C P r hr, ?_, ?_⟩
  · intro h
    rw [all_process_chunks, dealChunks_getD _ _ _ _ hr, if_pos h,
      ceil_div_of_mod_pos _ _ hP (by omega)]
  · intro h
    rw [all_process_chunks, dealChunks_getD _ _ _ _ hr, if_neg (by omega)]
  · intro h
    rw [point_end, process_points, if_neg h, Nat.add_zero]
  · rw [point_end, process_points, if_pos rfl]

/-- Witness for C1 at N = 150001, C = 50000, P = 3 (scenario S2 of the
spec): rank 2 is the last rank; chunk counts are [1, 1, 1]. -/
theorem c1_las_to_laz_partition_witness :
    (0 : Nat) < 3 ∧ (2 : Nat) < 3 ∧ (150001 / 50000 % 3 : Nat) ≤ 2 ∧
      (all_process_chunks 150001 50000 3).getD 2 0 = 150001 / 50000 / 3 :=
  ⟨by decide, by decide, by decide,
    (c1_las_to_laz_partition 150001 50000 3 2 (by decide) (by decide)).2.1
      (by decide)⟩

theorem point_end_sub_point_start (N C P r : Nat) :
    point_end N C P r - point_start N C P r =
      (all_process_chunks N C P).getD r 0 * C +
        (if r = P - 1 then N % C else 0) := by
  rw [point_end, process_points, Nat.add_assoc, Nat.add_sub_cancel_left]

theorem range_lens_sum_partial (N C P : Nat) :
    ∀ r, r ≤ P - 1 →
      ((List.range r).map (fun j => point_end N C P j - point_start N C P j)).sum =
        ((all_process_chunks N C P).take r).sum * C := by
  intro r
  induction r with
  | zero => intro _; simp
  | succ r ih =>
    intro hr
    rw [List.range_succ, List.map_append, List.sum_append, ih (by omega)]
    have hdiff : point_end N C P r - point_start N C P r =
        (all_process_chunks N C P).getD r 0 * C := by
      rw [point_end_sub_point_start, if_neg (by omega : ¬ r = P - 1),
        Nat.add_zero]
    simp only [List.map_cons, List.map_nil, List.sum_cons, List.sum_nil, hdiff]
    rw [take_succ_sum, Nat.add_mul]
    omega

theorem chunks_take_last_sum (N C P : Nat) (hP : 0 < P) :
    ((all_process_chunks N C P).take (P - 1)).sum +
      (all_process_chunks N C P).getD (P - 1) 0 = N / C := by
  have h := take_succ_sum (all_process_chunks N C P) (P - 1)
  rw [show P - 1 + 1 = P by omega,
    List.take_of_length_le (by rw [all_process_chunks_length]),
    all_process_chunks_sum N C P hP] at h
  omega

/-- The last rank's range ends exactly at `N`. -/
theorem point_end_last (N C P : Nat) (hP : 0 < P) :
    point_end N C P (P - 1) = N := by
  rw [point_end, process_points, if_pos rfl,
    point_start_eq N C P (P - 1) (by omega), ← Nat.add_mul,
    chunks_take_last_sum N C P hP, Nat.mul_comm]
  exact Nat.div_add_mod N C

/-- The range lengths over all ranks sum to exactly `N`. -/
theorem range_lens_total (N C P : Nat) (hP : 0 < P) :
    ((List.range P).map
        (fun r => point_end N C P r - point_start N C P r)).sum = N := by
  rw [show List.range P = List.range (P - 1) ++ [P - 1] by
    rw [← List.range_succ]; congr 1; omega]
  rw [List.map_append, List.sum_append,
    range_lens_sum_partial N C P (P - 1) (by omega)]
  simp only [List.map_cons, List.map_nil, List.sum_cons, List.sum_nil]
  rw [point_end_sub_point_start, if_pos rfl, Nat.add_zero,
    ← Nat.add_assoc, ← Nat.add_mul, chunks_take_last_sum N C P hP,
    Nat.mul_comm]
  exact Nat.div_add_mod N C

/-- C4: the LAS→LAZ ranges cover exactly `N` points, start at 0, are
contiguous and disjoint in rank order, end at `N`, and every rank below
the last has both endpoints on chunk boundaries. -/
theorem c4_partition_coverage (N C P : Nat) (hP : 0 < P) :
    ((List.range P).map
        (fun r => point_end N C P r - point_start N C P r)).sum = N ∧
    point_start N C P 0 = 0 ∧
    (∀ r, r + 1 < P → point_end N C P r = point_start N C P (r + 1)) ∧
    point_end N C P (P - 1) = N ∧
    (∀ r s, r < s → s < P → point_end N C P r ≤ point_start N C P s) ∧
    (∀ r, r < P - 1 → C ∣ point_start N C P r ∧ C ∣ point_end N C P r) := by
  refine ⟨range_lens_total N C P hP, ?_, ?_, point_end_last N C P hP, ?_, ?_⟩
  · rw [point_start_eq N C P 0 hP]; simp
  · intro r hr; exact point_end_eq_next N C P r hr
  · intro r s hrs hs
    have hr1 : r + 1 < P := by omega
    rw [point_end_eq_next N C P r hr1, point_start_eq N C P (r + 1) hr1,
      point_start_eq N C P s hs]
    exact Nat.mul_le_mul_right _ (sum_take_mono _ (by omega))
  · intro r hr
    constructor
    · rw [point_start_eq N C P r (by omega)]
      exact Nat.dvd_mul_left _ _
    · rw [point_end, process_points, if_neg (by omega : ¬ r = P - 1),
        Nat.add_zero, point_start_eq N C P r (by omega)]
      exact Nat.dvd_add (Nat.dvd_mul_left _ _) (Nat.dvd_mul_left _ _)

/-- Witness for C4 at N = 250000, C = 50000, P = 3 (scenario S4): the
three ranges cover all 250000 points. -/
theorem c4_partition_coverage_witness :
    (0 : Nat) < 3 ∧
      ((List.range 3).map
          (fun r => point_end 250000 50000 3 r - point_start 250000 50000 3 r)).sum =
        250000 :=
  ⟨by decide, (c4_partition_coverage 250000 50000 3 (by decide)).1⟩

/-- C6 counterexample: at N = 100000, C = 50000, P = 3 (scenario S3, where
K = 2 < P = 3) the partitioner does not fail at all: the code has no check
of K against P (laszip.cpp line 815 only notes in a comment that chunks >=
process_count is assumed), and it computes a normal, total partition in
which rank 2 receives the empty range [100000, 100000).  No
InsufficientChunks error exists anywhere in the source. -/
theorem c6_counterexample :
    100000 / 50000 < 3 ∧
    all_process_chunks 100000 50000 3 = [1, 1, 0] ∧
    point_start 100000 50000 3 0 = 0 ∧ point_end 100000 50000 3 0 = 50000 ∧
    point_start 100000 50000 3 1 = 50000 ∧
    point_end 100000 50000 3 1 = 100000 ∧
    point_start 100000 50000 3 2 = 100000 ∧
    point_end 100000 50000 3 2 = 100000 := by
  decide

/-- C6 amended: when K = N / C < P the partitioner performs no check and
raises no error; it silently assigns one chunk to each of the first K
ranks and zero chunks to every rank of index at least K (so those ranks
get empty ranges, except that the last rank still absorbs the N mod C
trailing points), and the job proceeds into the unsupported regime that
the README documents as a known bug. -/
theorem c6_insufficient_chunks_amended (N C P : Nat) (hP : 0 < P)
    (h : N / C < P) :
    ∀ r, r < P →
      (all_process_chunks N C P).getD r 0 = if r < N / C then 1 else 0 := by
  intro r hr
  rw [all_process_chunks, Nat.div_eq_of_lt h, Nat.mod_eq_of_lt h,
    dealChunks_getD _ _ _ _ hr]

/-- Witness for the amended C6 at scenario S3: rank 2 gets zero chunks. -/
theorem c6_insufficient_chunks_amended_witness :
    (0 : Nat) < 3 ∧ 100000 / 50000 < 3 ∧ (2 : Nat) < 3 ∧
      (all_process_chunks 100000 50000 3).getD 2 0 =
        if 2 < 100000 / 50000 then 1 else 0 :=
  ⟨by decide, by decide, by decide,
    c6_insufficient_chunks_amended 100000 50000 3 (by decide) (by decide) 2
      (by decide)⟩

/-- C8: for LAZ→LAS every rank starts at rank × ⌊N/P⌋ and owns ⌊N/P⌋
points, except the last rank which additionally absorbs the N mod P
leftover points. -/
theorem c8_laz_to_las_partition (N P r : Nat) :
    laz_point_start N P r = r * (N / P) ∧
    (r ≠ P - 1 →
      laz_point_end N P r - laz_point_start N P r = N / P) ∧
    laz_point_end N P (P - 1) - laz_point_start N P (P - 1) =
      N / P + N % P := by
  refine ⟨rfl, ?_, ?_⟩
  · intro h
    rw [laz_point_end, if_neg h, Nat.add_zero, Nat.add_sub_cancel_left]
  · rw [laz_point_end, if_pos rfl, Nat.add_assoc, Nat.add_sub_cancel_left]

/-- Witness for C8 at N = 10, P = 3, r = 0: the range holds ⌊10/3⌋ = 3
points. -/
theorem c8_laz_to_las_partition_witness :
    (0 : Nat) ≠ 3 - 1 ∧ laz_point_end 10 3 0 - laz_point_start 10 3 0 = 10 / 3 :=
  ⟨by decide, (c8_laz_to_las_partition 10 3 0).2.1 (by decide)⟩

/-! ## Placement exchange (laszip.cpp lines 884-911)

All ranks all-gather `point_bytes_written` into `all_point_bytes_written`;
each rank then starts from the reopened writer's stream position (directly
after the header and VLRs) and adds the byte counts of all lower ranks. -/

/-- The offset loop of laszip.cpp lines 905-909: `write_point_offset =
tell(); for (i = 0; i < rank; i++) write_point_offset +=
all_point_bytes_written[i]`. -/
def write_point_offset (header_end : Nat) (all_point_bytes_written : List Nat)
    (rank : Nat) : Nat :=
  (List.range rank).foldl
    (fun off i => off + all_point_bytes_written.getD i 0) header_end

theorem foldl_add_eq_sum (f : Nat → Nat) (l : List Nat) :
    ∀ acc : Nat, l.foldl (fun a i => a + f i) acc = acc + (l.map f).sum := by
  induction l with
  | nil => intro acc; simp
  | cons x xs ih =>
    intro acc
    simp [List.foldl_cons, ih, Nat.add_assoc]

theorem range_map_getD_sum (b : List Nat) (r : Nat) :
    ((List.range r).map (fun i => b.getD i 0)).sum = (b.take r).sum := by
  induction r with
  | zero => simp
  | succ r ih =>
    rw [List.range_succ, List.map_append, List.sum_append, ih, take_succ_sum]
    simp

/-- C2: each rank's final-pass write offset equals `header_end` plus the
sum of the all-gathered byte counts of all lower ranks, and consequently
the byte intervals of distinct ranks are disjoint and ordered by rank:
rank r's interval ends no later than rank s's interval starts, for
r < s. -/
theorem c2_offsets_disjoint (header_end : Nat) (all_bytes : List Nat) :
    (∀ rank, write_point_offset header_end all_bytes rank =
      header_end + (all_bytes.take rank).sum) ∧
    (∀ r s, r < s →
      write_point_offset header_end all_bytes r + all_bytes.getD r 0 ≤
        write_point_offset header_end all_bytes s) := by
  have h1 : ∀ rank, write_point_offset header_end all_bytes rank =
      header_end + (all_bytes.take rank).sum := by
    intro rank
    rw [write_point_offset, foldl_add_eq_sum, range_map_getD_sum]
  refine ⟨h1, ?_⟩
  intro r s hrs
  rw [h1 r, h1 s]
  have h2 := take_succ_sum all_bytes r
  have h3 := sum_take_mono all_bytes (show r + 1 ≤ s by omega)
  omega

/-- Witness for C2 with header_end = 10, byte counts [3, 4, 5], ranks 1 and
2: rank 1's interval [17, 21) ends before rank 2's offset 21. -/
theorem c2_offsets_disjoint_witness :
    (1 : Nat) < 2 ∧
      write_point_offset 10 [3, 4, 5] 1 + ([3, 4, 5] : List Nat).getD 1 0 ≤
        write_point_offset 10 [3, 4, 5] 2 :=
  ⟨by decide, (c2_offsets_disjoint 10 [3, 4, 5]).2 1 2 (by decide)⟩

/-! ## Chunk-table assembly on the last rank (laszip.cpp lines 939-1009)

Rank P-1 gathers the per-peer `number_chunks`, receives each peer's
`chunk_bytes` array into a single malloc'd buffer at the offsets given by
the prefix sums of the gathered counts, then overwrites its writer's
`chunk_table_start_position` (with the value received from rank 0),
`number_chunks` (with the total) and `chunk_bytes` (with the buffer)
before calling `write_chunk_table`.  A peer's local chunk count equals the
length of the `chunk_bytes` array it sends, so the per-peer arrays
determine the gathered counts. -/

/-- One `MPI_Recv` of a peer's chunk-bytes array landing at byte offset
`off` of the aggregation buffer (laszip.cpp line 969). -/
def writeSegment (buf : List Nat) (off : Nat) (seg : List Nat) : List Nat :=
  buf.take off ++ seg ++ buf.drop (off + seg.length)

/-- The receive loop of laszip.cpp lines 966-971, with the running offset
`current_offset` of lines 955-961 (the prefix sums of the gathered chunk
counts). -/
def recv_chunk_bytes_loop : List Nat → Nat → List (List Nat) → List Nat
  | buf, _, [] => buf
  | buf, off, seg :: rest =>
      recv_chunk_bytes_loop (writeSegment buf off seg) (off + seg.length) rest

theorem recv_chunk_bytes_loop_eq (segs : List (List Nat)) :
    ∀ (buf : List Nat) (off : Nat),
      off + (segs.map List.length).sum = buf.length →
      recv_chunk_bytes_loop buf off segs = buf.take off ++ segs.flatten := by
  induction segs with
  | nil =>
    intro buf off h
    simp only [List.map_nil, List.sum_nil, Nat.add_zero] at h
    have hrec : recv_chunk_bytes_loop buf off [] = buf := rfl
    rw [hrec, List.take_of_length_le (Nat.le_of_eq h.symm)]
    simp
  | cons seg rest ih =>
    intro buf off h
    simp only [List.map_cons, List.sum_cons] at h
    have hoff : off + seg.length ≤ buf.length := by omega
    have hlen : (writeSegment buf off seg).length = buf.length := by
      simp only [writeSegment, List.length_append, List.length_take,
        List.length_drop]
      omega
    have hrec : recv_chunk_bytes_loop buf off (seg :: rest) =
        recv_chunk_bytes_loop (writeSegment buf off seg) (off + seg.length)
          rest := rfl
    rw [hrec, ih (writeSegment buf off seg) (off + seg.length) (by omega)]
    have hA : (buf.take off ++ seg).length = off + seg.length := by
      simp only [List.length_append, List.length_take]
      omega
    have htake : (writeSegment buf off seg).take (off + seg.length) =
        buf.take off ++ seg := by
      rw [writeSegment, List.take_append_of_le_length (Nat.le_of_eq hA.symm)]
      exact List.take_of_length_le (Nat.le_of_eq hA)
    rw [htake]
    simp [List.append_assoc]

/-- The writer fields that `write_chunk_table` consumes (LASwritePoint
state mutated at laszip.cpp lines 1003-1006). -/
structure LASwriteState where
  number_chunks : Nat
  chunk_bytes : List Nat
  chunk_table_start_position : Nat

/-- The gathered `number_chunks` array of laszip.cpp line 940: one chunk
count per peer, each the length of that peer's chunk-bytes array. -/
def gathered_number_chunks (per_peer : List (List Nat)) : List Nat :=
  per_peer.map List.length

/-- `number_chunks_total` of laszip.cpp lines 941-948. -/
def number_chunks_total (per_peer : List (List Nat)) : Nat :=
  (gathered_number_chunks per_peer).sum

/-- The last rank's writer state just before `write_chunk_table` is called
(laszip.cpp lines 1001-1007): the buffer filled by the receive loop, the
summed chunk count, and the table position received from rank 0. -/
def table_writer_final_state (per_peer : List (List Nat))
    (table_pos : Nat) : LASwriteState :=
  { number_chunks := number_chunks_total per_peer
    chunk_bytes :=
      recv_chunk_bytes_loop
        (List.replicate (number_chunks_total per_peer) 0) 0 per_peer
    chunk_table_start_position := table_pos }

/-- C3: when `write_chunk_table` is invoked on the last rank, the writer's
`number_chunks` equals the sum of all peers' chunk counts, its
`chunk_bytes` buffer is exactly the concatenation of the peers' arrays in
rank order (each landing at the prefix-sum offset), and its
`chunk_table_start_position` is the value received from rank 0. -/
theorem c3_chunk_table_assembly (per_peer : List (List Nat)) (table_pos : Nat) :
    (table_writer_final_state per_peer table_pos).number_chunks =
      (per_peer.map List.length).sum ∧
    (table_writer_final_state per_peer table_pos).chunk_bytes = per_peer.flatten ∧
    (table_writer_final_state per_peer table_pos).chunk_table_start_position =
      table_pos := by
  refine ⟨rfl, ?_, rfl⟩
  show recv_chunk_bytes_loop
      (List.replicate (number_chunks_total per_peer) 0) 0 per_peer =
    per_peer.flatten
  rw [recv_chunk_bytes_loop_eq per_peer _ 0 (by
    simp [number_chunks_total, gathered_number_chunks])]
  simp

/-! ## The per-pass point-write loop (laszip.cpp lines 865-872, 918-925)

`while (lasreader->read_point()) { laswriter->write_point(...); if
(laswriter->p_count == point_end - point_start) break; }`.  The reader is
modelled as the list of points it will still yield; `read_point` fails
exactly when that list is exhausted.  The returned flag is true when the
loop exited through the break, i.e. when every `read_point` call the loop
made yielded a point. -/

def write_loop {α : Type} : List α → Nat → Nat → Nat × Bool
  | [], p_count, _ => (p_count, false)
  | _ :: rest, p_count, target =>
      if p_count + 1 = target then (p_count + 1, true)
      else write_loop rest (p_count + 1) target

theorem write_loop_break_count {α : Type} (reader : List α) :
    ∀ p_count target, (write_loop reader p_count target).2 = true →
      (write_loop reader p_count target).1 = target := by
  induction reader with
  | nil => intro p_count target h; simp [write_loop] at h
  | cons x rest ih =>
    intro p_count target h
    by_cases he : p_count + 1 = target
    · simp [write_loop, he]
    · rw [write_loop, if_neg he] at h ⊢
      exact ih _ _ h

theorem write_loop_runs_to_target {α : Type} (reader : List α) :
    ∀ p_count target, p_count < target → target ≤ p_count + reader.length →
      write_loop reader p_count target = (target, true) := by
  induction reader with
  | nil => intro p_count target h1 h2; simp at h2; omega
  | cons x rest ih =>
    intro p_count target h1 h2
    by_cases he : p_count + 1 = target
    · simp [write_loop, he]
    · rw [write_loop, if_neg he]
      exact ih _ _ (by omega) (by simpa [Nat.add_comm, Nat.add_assoc,
        Nat.add_left_comm] using h2)

/-- C9: in either pass, whenever every `read_point` call made by the loop
yields a point (the loop exits through its break), the number of points
written is exactly `point_end - point_start`; and whenever the range is
nonempty and the reader holds at least that many points, the loop does
exit through the break after writing exactly that many points. -/
theorem c9_write_loop_exact {α : Type} (reader : List α) (N C P r : Nat) :
    ((write_loop reader 0 (point_end N C P r - point_start N C P r)).2 = true →
      (write_loop reader 0 (point_end N C P r - point_start N C P r)).1 =
        point_end N C P r - point_start N C P r) ∧
    (0 < point_end N C P r - point_start N C P r →
      point_end N C P r - point_start N C P r ≤ reader.length →
      write_loop reader 0 (point_end N C P r - point_start N C P r) =
        (point_end N C P r - point_start N C P r, true)) :=
  ⟨write_loop_break_count reader 0 _,
    fun h1 h2 => write_loop_runs_to_target reader 0 _ h1 (by omega)⟩

/-- Witness for C9 at N = 4, C = 2, P = 2, rank 0 (range [0, 2)) with a
reader holding 3 points: the loop writes exactly 2 points and breaks. -/
theorem c9_write_loop_exact_witness :
    0 < point_end 4 2 2 0 - point_start 4 2 2 0 ∧
      point_end 4 2 2 0 - point_start 4 2 2 0 ≤ ([7, 8, 9] : List Nat).length ∧
      write_loop ([7, 8, 9] : List Nat) 0
          (point_end 4 2 2 0 - point_start 4 2 2 0) =
        (point_end 4 2 2 0 - point_start 4 2 2 0, true) :=
  ⟨by decide, by decide,
    (c9_write_loop_exact ([7, 8, 9] : List Nat) 4 2 2 0).2 (by decide)
      (by decide)⟩

/-! ## Per-rank driver trace (laszip.cpp lines 860-1010)

The sequence of file and MPI operations one rank performs, in source
order.  The direction mirrors the repeated test `lasreader->header.laszip
== NULL` (LAS→LAZ) versus non-NULL (LAZ→LAS).  The sizing-pass loop writes
only to the nil byte sink, so it is not a file write; `openRealWriter`
stands for reopening the writer on the real file, which emits the header
and VLRs.  The `final_pass_bytes` argument stands for the number of bytes
the second pass puts on the stream: the driver takes a tell() delta only
around the first (sizing) pass, lines 862 and 881-882, and never measures
or inspects the second pass's byte count, so the trace cannot depend on
this argument. -/

inductive Direction where
  | lasToLaz
  | lazToLas
  deriving DecidableEq

inductive Ev where
  | seekReader (pos : Nat)
  | sizingLoop (start stop : Nat)
  | barrier
  | encDone
  | addChunkToTable
  | allgatherBytes
  | openRealWriter
  | seekWriter (off : Nat)
  | finalWrite (start stop : Nat)
  | gatherNumberChunks
  | sendChunkBytes
  | recvChunkBytes (peer : Nat)
  | sendTablePos
  | recvTablePos
  | writeChunkTable
  deriving DecidableEq

/-- File-writing operations: the header and VLRs emitted on reopening the
real file, a rank's point range in the final pass, and the chunk table. -/
def isFileWrite : Ev → Bool
  | Ev.openRealWriter => true
  | Ev.finalWrite _ _ => true
  | Ev.writeChunkTable => true
  | _ => false

/-- The operations of one rank in source order, laszip.cpp lines 860-1010:
reader seek and sizing loop (862-872); barrier; chunk termination in the
LAS→LAZ direction only (874-878); barriers; all-gather of the sizing byte
counts (885-891); barrier; reopen of the real writer (899-902); seek to
the computed offset, reader seek and final write loop (904-925); barrier;
chunk termination in the LAS→LAZ direction only (927-931); barrier; and,
in the LAS→LAZ direction only, the chunk-metadata exchange and the chunk
table write on the last rank (934-1010). -/
def driver_trace (dir : Direction)
    (rank process_count pstart pend header_end : Nat)
    (all_point_bytes_written : List Nat) (final_pass_bytes : Nat) : List Ev :=
  [Ev.seekReader pstart, Ev.sizingLoop pstart pend, Ev.barrier] ++
  (if dir = Direction.lasToLaz then [Ev.encDone, Ev.addChunkToTable] else []) ++
  [Ev.barrier, Ev.barrier, Ev.barrier, Ev.allgatherBytes, Ev.barrier,
    Ev.openRealWriter, Ev.barrier,
    Ev.seekWriter (write_point_offset header_end all_point_bytes_written rank),
    Ev.seekReader pstart, Ev.finalWrite pstart pend, Ev.barrier] ++
  (if dir = Direction.lasToLaz then [Ev.encDone, Ev.addChunkToTable] else []) ++
  [Ev.barrier] ++
  (if dir = Direction.lasToLaz then
    [Ev.gatherNumberChunks, Ev.sendChunkBytes] ++
    (if rank = process_count - 1 then
      (List.range process_count).map Ev.recvChunkBytes else []) ++
    [Ev.barrier] ++
    (if rank = 0 then [Ev.sendTablePos] else []) ++
    (if rank = process_count - 1 then [Ev.recvTablePos] else []) ++
    [Ev.barrier] ++
    (if rank = process_count - 1 then [Ev.writeChunkTable] else [])
  else [])

/-- C10: in the LAZ→LAS direction no chunk termination happens after
either pass, the whole chunk-metadata exchange and chunk-table write are
skipped on every rank, and the only file writes are the header (on
reopening the real writer) and the rank's own decompressed point range. -/
theorem c10_laz_to_las_frame (rank process_count pstart pend header_end : Nat)
    (all_bytes : List Nat) (final_pass_bytes : Nat) :
    driver_trace Direction.lazToLas rank process_count pstart pend header_end
        all_bytes final_pass_bytes =
      [Ev.seekReader pstart, Ev.sizingLoop pstart pend, Ev.barrier,
        Ev.barrier, Ev.barrier, Ev.barrier, Ev.allgatherBytes, Ev.barrier,
        Ev.openRealWriter, Ev.barrier,
        Ev.seekWriter (write_point_offset header_end all_bytes rank),
        Ev.seekReader pstart, Ev.finalWrite pstart pend, Ev.barrier,
        Ev.barrier] ∧
    Ev.encDone ∉ driver_trace Direction.lazToLas rank process_count pstart
      pend header_end all_bytes final_pass_bytes ∧
    Ev.addChunkToTable ∉ driver_trace Direction.lazToLas rank process_count
      pstart pend header_end all_bytes final_pass_bytes ∧
    Ev.gatherNumberChunks ∉ driver_trace Direction.lazToLas rank
      process_count pstart pend header_end all_bytes final_pass_bytes ∧
    Ev.sendChunkBytes ∉ driver_trace Direction.lazToLas rank process_count
      pstart pend header_end all_bytes final_pass_bytes ∧
    (∀ p, Ev.recvChunkBytes p ∉ driver_trace Direction.lazToLas rank
      process_count pstart pend header_end all_bytes final_pass_bytes) ∧
    Ev.sendTablePos ∉ driver_trace Direction.lazToLas rank process_count
      pstart pend header_end all_bytes final_pass_bytes ∧
    Ev.recvTablePos ∉ driver_trace Direction.lazToLas rank process_count
      pstart pend header_end all_bytes final_pass_bytes ∧
    Ev.writeChunkTable ∉ driver_trace Direction.lazToLas rank process_count
      pstart pend header_end all_bytes final_pass_bytes ∧
    (driver_trace Direction.lazToLas rank process_count pstart pend
        header_end all_bytes final_pass_bytes).filter isFileWrite =
      [Ev.openRealWriter, Ev.finalWrite pstart pend] := by
  refine ⟨rfl, ?_, ?_, ?_, ?_, ?_, ?_, ?_, ?_, rfl⟩
  all_goals simp [driver_trace]

/-- C7 counterexample: with a final-pass byte count (999) different from
the rank's sizing-pass byte count (100, entry 1 of the all-gathered
vector), the driver's behavior is identical to the matching run — no
comparison is made anywhere between the two passes — and the job still
completes normally through the chunk-table write.  The claimed
SizingMismatch detection does not exist in the source. -/
theorem c7_counterexample :
    (999 : Nat) ≠ 100 ∧
    driver_trace Direction.lasToLaz 1 2 50000 100000 227 [100, 100] 999 =
      driver_trace Direction.lasToLaz 1 2 50000 100000 227 [100, 100] 100 ∧
    Ev.writeChunkTable ∈
      driver_trace Direction.lasToLaz 1 2 50000 100000 227 [100, 100] 999 := by
  refine ⟨by decide, rfl, by decide⟩

/-- C7 amended: the driver never compares the final-pass byte count with
the sizing-pass byte count: its trace is the same function of the inputs
whether or not the two counts agree, and in the LAS→LAZ direction the job
proceeds to the chunk-table write on the last rank regardless.  The
equality of the two counts is relied upon (the placement offsets come from
the sizing counts) but is never checked, so a mismatch would go
undetected rather than be fatal. -/
theorem c7_no_sizing_check (dir : Direction)
    (rank process_count pstart pend header_end : Nat) (all_bytes : List Nat)
    (final_bytes sizing_bytes : Nat) (hne : final_bytes ≠ sizing_bytes) :
    driver_trace dir rank process_count pstart pend header_end all_bytes
        final_bytes =
      driver_trace dir rank process_count pstart pend header_end all_bytes
        sizing_bytes ∧
    (dir = Direction.lasToLaz → rank = process_count - 1 →
      Ev.writeChunkTable ∈ driver_trace dir rank process_count pstart pend
        header_end all_bytes final_bytes) := by
  refine ⟨rfl, ?_⟩
  intro hdir hrank
  subst hdir
  simp [driver_trace, hrank]

/-- Witness for the amended C7: a mismatching pair of byte counts (7 versus
6) leaves rank 0 of a single-rank job with an unchanged trace that reaches
the chunk-table write. -/
theorem c7_no_sizing_check_witness :
    (7 : Nat) ≠ 6 ∧
      driver_trace Direction.lasToLaz 0 1 0 50000 227 [7] 7 =
        driver_trace Direction.lasToLaz 0 1 0 50000 227 [7] 6 ∧
      Ev.writeChunkTable ∈
        driver_trace Direction.lasToLaz 0 1 0 50000 227 [7] 7 :=
  ⟨by decide,
    (c7_no_sizing_check Direction.lasToLaz 0 1 0 50000 227 [7] 7 6
        (by decide)).1,
    (c7_no_sizing_check Direction.lasToLaz 0 1 0 50000 227 [7] 7 6
        (by decide)).2 rfl (by decide)⟩

/-! ## Serial equivalence of the parallel layout (laszip.cpp lines 860-1010)

The compressed bytes and the chunk table are produced by the LASzip
library, whose sources are not part of the driver file.  Modelled from the
spec: a chunk is a contiguous run of C points encoded as an independent
arithmetic-coder stream (section 3), and "the LAZ byte layout is
deterministic given the sequence of points and the chunk boundary
alignment", so that "encoding each peer's range in isolation produces the
same bytes as encoding the full file in sequence" (section 4.2).  The
encoder is therefore an arbitrary function from a chunk's point list to
its compressed bytes, the chunk-table encoding an arbitrary function of
the per-chunk byte counts, and the header an arbitrary byte list
(identical on every rank because the header pass is deterministic). -/

variable {α : Type}

/-- Split a point list into chunks of `C` points each, the last chunk
possibly shorter.  The `C = 0` branch is degenerate and never used: the
writer's chunk size is positive (default 50000). -/
def chunkify (C : Nat) (l : List α) : List (List α) :=
  match C, l with
  | _, [] => []
  | 0, _ :: _ => []
  | c + 1, x :: xs => ((x :: xs).take (c + 1)) :: chunkify (c + 1) (xs.drop c)
  termination_by l.length
  decreasing_by simp [List.length_drop]; omega

theorem chunkify_nil (C : Nat) : chunkify C ([] : List α) = [] := by
  cases C <;> simp [chunkify]

theorem chunkify_cons_eq (C : Nat) (hC : 0 < C) (l : List α) (hl : l ≠ []) :
    chunkify C l = l.take C :: chunkify C (l.drop C) := by
  obtain ⟨c, rfl⟩ : ∃ c, C = c + 1 := ⟨C - 1, by omega⟩
  cases l with
  | nil => exact absurd rfl hl
  | cons x xs =>
    rw [chunkify, List.drop_succ_cons]

/-- Chunking distributes over an append whose first part is a whole number
of chunks. -/
theorem chunkify_append (C : Nat) (hC : 0 < C) (a b : List α)
    (h : C ∣ a.length) :
    chunkify C (a ++ b) = chunkify C a ++ chunkify C b := by
  obtain ⟨m, hm⟩ := h
  induction m generalizing a with
  | zero =>
    have ha : a = [] := List.eq_nil_of_length_eq_zero (by omega)
    subst ha
    simp [chunkify_nil]
  | succ m ih =>
    have ha : a ≠ [] := by
      intro h0
      subst h0
      simp at hm
      omega
    have hCa : C ≤ a.length := by
      rw [hm]
      calc C = C * 1 := (Nat.mul_one C).symm
        _ ≤ C * (m + 1) := Nat.mul_le_mul_left C (by omega)
    have hab : a ++ b ≠ [] := by
      intro h0
      exact ha (List.append_eq_nil.mp h0).1
    rw [chunkify_cons_eq C hC (a ++ b) hab, chunkify_cons_eq C hC a ha,
      List.take_append_of_le_length hCa, List.drop_append_of_le_length hCa,
      ih (a.drop C) (by rw [List.length_drop, hm, Nat.mul_succ,
        Nat.add_sub_cancel]),
      List.cons_append]

/-- Chunking a concatenation whose segments are all (except possibly the
last) whole numbers of chunks equals concatenating the per-segment
chunkings. -/
theorem chunkify_flatten (C : Nat) (hC : 0 < C) :
    ∀ segs : List (List α), (∀ s ∈ segs.dropLast, C ∣ s.length) →
      chunkify C segs.flatten = (segs.map (chunkify C)).flatten := by
  intro segs
  induction segs with
  | nil => intro _; simp [chunkify_nil]
  | cons s rest ih =>
    intro h
    cases rest with
    | nil => simp
    | cons t rest2 =>
      have hdl : (s :: t :: rest2).dropLast = s :: (t :: rest2).dropLast :=
        rfl
      have hs : C ∣ s.length := by
        apply h s
        rw [hdl]
        exact List.mem_cons_self _ _
      have h2 : ∀ u ∈ (t :: rest2).dropLast, C ∣ u.length := by
        intro u hu
        apply h u
        rw [hdl]
        exact List.mem_cons_of_mem _ hu
      rw [List.flatten_cons, chunkify_append C hC s _ hs, ih h2]
      simp

/-- Cutting a list into consecutive segments of the given lengths. -/
def splitLens : List Nat → List α → List (List α)
  | [], _ => []
  | n :: rest, l => l.take n :: splitLens rest (l.drop n)

theorem splitLens_length (lens : List Nat) :
    ∀ l : List α, (splitLens lens l).length = lens.length := by
  induction lens with
  | nil => intro l; rfl
  | cons n rest ih => intro l; simp [splitLens, ih]

theorem splitLens_flatten (lens : List Nat) :
    ∀ l : List α, (splitLens lens l).flatten = l.take lens.sum := by
  induction lens with
  | nil => intro l; simp [splitLens]
  | cons n rest ih =>
    intro l
    simp only [splitLens, List.flatten_cons, ih, List.sum_cons]
    rw [List.take_add]

theorem splitLens_map_length (lens : List Nat) :
    ∀ l : List α, lens.sum ≤ l.length →
      (splitLens lens l).map List.length = lens := by
  induction lens with
  | nil => intro l _; rfl
  | cons n rest ih =>
    intro l h
    simp only [List.sum_cons] at h
    simp only [splitLens, List.map_cons, List.length_take]
    rw [ih (l.drop n) (by rw [List.length_drop]; omega)]
    congr 1
    omega

theorem splitLens_getD (lens : List Nat) :
    ∀ (l : List α) (r : Nat),
      (splitLens lens l).getD r [] =
        (l.drop ((lens.take r).sum)).take (lens.getD r 0) := by
  induction lens with
  | nil => intro l r; simp [splitLens]
  | cons n rest ih =>
    intro l r
    cases r with
    | zero => simp [splitLens]
    | succ r =>
      simp only [splitLens, List.getD_cons_succ, ih, List.take_succ_cons,
        List.sum_cons, List.drop_drop]

theorem range_map_getD (P : Nat) (f : Nat → Nat) (r : Nat) (hr : r < P) :
    ((List.range P).map f).getD r 0 = f r := by
  rw [List.getD_eq_getElem _ _ (by simpa using hr), List.getElem_map,
    List.getElem_range]

theorem getD_dropLast {β : Type} (d : β) (X : List β) (i : Nat)
    (hi : i < X.dropLast.length) :
    X.dropLast.getD i d = X.getD i d := by
  rw [List.getD_eq_getElem _ _ hi,
    List.getD_eq_getElem _ _ (by rw [List.length_dropLast] at hi; omega),
    List.getElem_dropLast]

theorem getD_map_length {β : Type} (X : List (List β)) (i : Nat)
    (hi : i < X.length) :
    (X.map List.length).getD i 0 = (X.getD i []).length := by
  rw [List.getD_eq_getElem _ _ (by simpa using hi),
    List.getD_eq_getElem _ _ hi, List.getElem_map]

/-- `point_start` equals the sum of the range lengths of all lower
ranks. -/
theorem point_start_eq_range_sum (N C P : Nat) :
    ∀ r, r < P →
      point_start N C P r =
        ((List.range r).map
          (fun j => point_end N C P j - point_start N C P j)).sum := by
  intro r
  induction r with
  | zero =>
    intro hP
    rw [point_start_eq N C P 0 hP]
    simp
  | succ r ih =>
    intro hr
    rw [List.range_succ, List.map_append, List.sum_append, ← ih (by omega)]
    simp only [List.map_cons, List.map_nil, List.sum_cons, List.sum_nil]
    have hle : point_start N C P r ≤ point_end N C P r := by
      rw [point_end]
      omega
    have hnext := point_end_eq_next N C P r hr
    omega

/-- The point range a rank reads: `lasreader->seek(point_start)` followed
by `point_end - point_start` reads (laszip.cpp lines 863-872 and
916-925). -/
def peerSlice (N C P : Nat) (pts : List α) (r : Nat) : List α :=
  (pts.drop (point_start N C P r)).take
    (point_end N C P r - point_start N C P r)

theorem peer_slices_eq_splitLens (N C P : Nat) (pts : List α) :
    (List.range P).map (peerSlice N C P pts) =
      splitLens
        ((List.range P).map
          (fun j => point_end N C P j - point_start N C P j)) pts := by
  apply List.ext_getElem
  · simp [splitLens_length]
  · intro i h1 h2
    have hiP : i < P := by simpa using h1
    rw [List.getElem_map, List.getElem_range,
      ← List.getD_eq_getElem _ [] h2, splitLens_getD, ← List.map_take,
      List.take_range, Nat.min_eq_left (Nat.le_of_lt hiP),
      range_map_getD P _ i hiP, peerSlice,
      point_start_eq_range_sum N C P i hiP]

theorem splitLens_ranges_div (N C P : Nat) (hC : 0 < C) (hP : 0 < P)
    (pts : List α) (hN : pts.length = N) :
    ∀ s ∈ (splitLens
        ((List.range P).map
          (fun j => point_end N C P j - point_start N C P j)) pts).dropLast,
      C ∣ s.length := by
  intro s hs
  obtain ⟨i, hi, hget⟩ := List.mem_iff_getElem.mp hs
  have hlen1 : (splitLens
      ((List.range P).map
        (fun j => point_end N C P j - point_start N C P j)) pts).length =
      P := by
    rw [splitLens_length, List.length_map, List.length_range]
  have hiP1 : i < P - 1 := by
    rw [List.length_dropLast, hlen1] at hi
    exact hi
  have hsum : ((List.range P).map
      (fun j => point_end N C P j - point_start N C P j)).sum ≤
      pts.length := by
    rw [range_lens_total N C P hP, hN]
  have hmap := splitLens_map_length
    ((List.range P).map (fun j => point_end N C P j - point_start N C P j))
    pts hsum
  have hsl : s.length =
      point_end N C P i - point_start N C P i := by
    rw [← hget, ← List.getD_eq_getElem _ [] hi,
      getD_dropLast [] _ i hi, ← getD_map_length _ i (by omega), hmap,
      range_map_getD P _ i (by omega)]
  rw [hsl, point_end_sub_point_start, if_neg (by omega : ¬ i = P - 1),
    Nat.add_zero]
  exact Nat.dvd_mul_left _ _

/-- The peer slices, in rank order, concatenate back to the whole point
list, and chunking them separately agrees with chunking the whole list:
the parallel chunk sequence equals the serial one. -/
theorem parallel_chunks_eq (N C P : Nat) (hC : 0 < C) (hP : 0 < P)
    (pts : List α) (hN : pts.length = N) :
    ((List.range P).map (fun r => chunkify C (peerSlice N C P pts r))).flatten =
      chunkify C pts := by
  have h1 : (List.range P).map (fun r => chunkify C (peerSlice N C P pts r)) =
      (splitLens
        ((List.range P).map
          (fun j => point_end N C P j - point_start N C P j)) pts).map
        (chunkify C) := by
    rw [← peer_slices_eq_splitLens, List.map_map]
    rfl
  rw [h1, ← chunkify_flatten C hC _ (splitLens_ranges_div N C P hC hP pts hN),
    splitLens_flatten, range_lens_total N C P hP, ← hN,
    List.take_of_length_le (Nat.le_refl _)]

theorem flatten_map_flatten {β γ : Type} (f : List β → List γ) :
    ∀ L : List (List (List β)),
      (L.map (fun cl => (cl.map f).flatten)).flatten =
        (L.flatten.map f).flatten := by
  intro L
  induction L with
  | nil => simp
  | cons cl rest ih => simp [ih]

theorem flatten_map_map {β γ : Type} (g : List β → γ) :
    ∀ L : List (List (List β)),
      (L.map (fun cl => cl.map g)).flatten = L.flatten.map g := by
  intro L
  induction L with
  | nil => simp
  | cons cl rest ih =>
    rw [List.map_cons, List.flatten_cons, List.flatten_cons,
      List.map_append, ih]

/-- Modelled from the spec: the per-chunk encoder (the LASzip
arithmetic-coded point codec, an external collaborator) as an arbitrary
function from a chunk's points to its compressed bytes.  The serial
compressed stream is the concatenation of the chunk encodings. -/
def serial_compressed (enc : List α → List Nat) (C : Nat)
    (pts : List α) : List Nat :=
  ((chunkify C pts).map enc).flatten

/-- The serial chunk table rows: each chunk's compressed byte count. -/
def serial_chunk_rows (enc : List α → List Nat) (C : Nat)
    (pts : List α) : List Nat :=
  (chunkify C pts).map (fun ch => (enc ch).length)

/-- The parallel compressed region: each rank encodes its own point range
in isolation (the sizing and final passes both start a fresh encoder at
the rank's chunk-aligned `point_start`), and the ranks' bytes are placed
in rank order (laszip.cpp lines 904-925 with the offsets of C2). -/
def parallel_compressed (enc : List α → List Nat) (N C P : Nat)
    (pts : List α) : List Nat :=
  ((List.range P).map
    (fun r => serial_compressed enc C (peerSlice N C P pts r))).flatten

/-- The parallel chunk table rows: the per-rank `chunk_bytes` arrays
concatenated in rank order by the last rank (C3). -/
def parallel_chunk_rows (enc : List α → List Nat) (N C P : Nat)
    (pts : List α) : List Nat :=
  ((List.range P).map
    (fun r => serial_chunk_rows enc C (peerSlice N C P pts r))).flatten

/-- Modelled from the spec: a LAZ file is the header and VLRs, the
compressed point region, and the chunk table (an arbitrary function of
the per-chunk byte counts) at its tail. -/
def laz_file (header : List Nat) (table_enc : List Nat → List Nat)
    (compressed rows : List Nat) : List Nat :=
  header ++ compressed ++ table_enc rows

/-- C5: for any chunk-deterministic encoder, the parallel cohort's output
equals the serial encoder's output byte for byte: the compressed point
bytes agree in content and order, the chunk-table rows agree, the whole
files agree, and the chunk table starts at the identical offset.  With
P = 1 this specializes to serial equivalence. -/
theorem c5_serial_equivalence (enc : List α → List Nat)
    (table_enc : List Nat → List Nat) (header : List Nat)
    (N C P : Nat) (pts : List α) (hC : 0 < C) (hP : 0 < P)
    (hN : pts.length = N) :
    parallel_compressed enc N C P pts = serial_compressed enc C pts ∧
    parallel_chunk_rows enc N C P pts = serial_chunk_rows enc C pts ∧
    laz_file header table_enc (parallel_compressed enc N C P pts)
        (parallel_chunk_rows enc N C P pts) =
      laz_file header table_enc (serial_compressed enc C pts)
        (serial_chunk_rows enc C pts) ∧
    (header ++ parallel_compressed enc N C P pts).length =
      (header ++ serial_compressed enc C pts).length := by
  have hchunks := parallel_chunks_eq N C P hC hP pts hN
  have hcomp : parallel_compressed enc N C P pts =
      serial_compressed enc C pts := by
    rw [parallel_compressed, serial_compressed]
    have hmm : (List.range P).map
        (fun r => serial_compressed enc C (peerSlice N C P pts r)) =
        ((List.range P).map
          (fun r => chunkify C (peerSlice N C P pts r))).map
          (fun cl => (cl.map enc).flatten) := by
      rw [List.map_map]
      rfl
    rw [hmm, flatten_map_flatten, hchunks]
  have hrows : parallel_chunk_rows enc N C P pts =
      serial_chunk_rows enc C pts := by
    rw [parallel_chunk_rows, serial_chunk_rows]
    have hmm : (List.range P).map
        (fun r => serial_chunk_rows enc C (peerSlice N C P pts r)) =
        ((List.range P).map
          (fun r => chunkify C (peerSlice N C P pts r))).map
          (fun cl => cl.map (fun ch => (enc ch).length)) := by
      rw [List.map_map]
      rfl
    rw [hmm, flatten_map_map, hchunks]
  exact ⟨hcomp, hrows, by rw [hcomp, hrows], by rw [hcomp]⟩

/-- Witness for C5: five points in chunks of two across two ranks, with
the identity chunk encoder and table encoder: the parallel compressed
stream equals the serial one. -/
theorem c5_serial_equivalence_witness :
    (0 : Nat) < 2 ∧ (0 : Nat) < 2 ∧
      ([10, 20, 30, 40, 50] : List Nat).length = 5 ∧
      parallel_compressed (fun ch => ch) 5 2 2 [10, 20, 30, 40, 50] =
        serial_compressed (fun ch => ch) 2 [10, 20, 30, 40, 50] :=
  ⟨by decide, by decide, by decide,
    (c5_serial_equivalence (fun ch => ch) (fun rows => rows) [1, 2]
        5 2 2 [10, 20, 30, 40, 50] (by decide) (by decide) (by decide)).1⟩

end PLaszip
